import Mathlib

/-
Verification of the ecr entity-component storage engine (ecr-ts).

The repository ships the public type declarations of the engine: the
`Pool` sparse-set layout (size, sparse map from entity key to internal
index, packed entity array, packed value array), the `Registry`,
`View`, `Group`, `Observer`, `Signal` and `Queue` interfaces, together
with their documented behaviour.  The executable bodies are not part of
the repository, so every operation below is modelled from the
specification's words and settled against that model.
-/

namespace ECR

/-- Modelled from the spec: the per-component sparse-set pool.  The
repository declares the `Pool` interface (`size`, sparse `map` from
entity key to internal index, packed `entities`, packed parallel
`values`) but not its implementation. -/
structure Pool (V : Type) where
  size : Nat
  map : Nat → Option Nat
  entities : List Nat
  values : List V

/-- Modelled from the spec: `has` is an O(1) sparse-map lookup. -/
def Pool.has {V : Type} (p : Pool V) (e : Nat) : Bool :=
  (p.map e).isSome

/-- Modelled from the spec: `set(id, value)` inserts if absent (append to
the packed arrays and record the slot in the sparse map) or overwrites
the value in place if present. -/
def Pool.set {V : Type} (p : Pool V) (e : Nat) (v : V) : Pool V :=
  match p.map e with
  | some i => { p with values := p.values.set i v }
  | none =>
      { size := p.size + 1
        map := fun x => if x = e then some p.entities.length else p.map x
        entities := p.entities ++ [e]
        values := p.values ++ [v] }

/-- Modelled from the spec: `try_get` returns the stored value through the
sparse map, or empty when the entity lacks the component. -/
def Pool.get {V : Type} (p : Pool V) (e : Nat) : Option V :=
  (p.map e).bind fun i => p.values[i]?

/-- Modelled from the spec: `remove(id)` is a no-op if absent; otherwise it
swap-removes the packed slot with the last packed element and patches the
sparse-map entry of the moved entity. -/
def Pool.remove {V : Type} (p : Pool V) (e : Nat) : Pool V :=
  match p.map e with
  | none => p
  | some i =>
      let n := p.entities.length - 1
      match p.entities[n]?, p.values[n]? with
      | some lastE, some lastV =>
          { size := p.size - 1
            map := fun x => if x = e then none else if x = lastE then some i else p.map x
            entities := (p.entities.set i lastE).take n
            values := (p.values.set i lastV).take n }
      | _, _ => p

theorem Pool.set_of_mem {V : Type} {p : Pool V} {e i : Nat} (h : p.map e = some i) (v : V) :
    p.set e v = { p with values := p.values.set i v } := by
  unfold Pool.set
  rw [h]

theorem Pool.set_of_not_mem {V : Type} {p : Pool V} {e : Nat} (h : p.map e = none) (v : V) :
    p.set e v =
      { size := p.size + 1
        map := fun x => if x = e then some p.entities.length else p.map x
        entities := p.entities ++ [e]
        values := p.values ++ [v] } := by
  unfold Pool.set
  rw [h]

theorem Pool.remove_of_not_mem {V : Type} {p : Pool V} {e : Nat} (h : p.map e = none) :
    p.remove e = p := by
  unfold Pool.remove
  rw [h]

theorem Pool.remove_of_mem {V : Type} {p : Pool V} {e i lastE : Nat} {lastV : V}
    (h : p.map e = some i)
    (hle : p.entities[p.entities.length - 1]? = some lastE)
    (hlv : p.values[p.entities.length - 1]? = some lastV) :
    p.remove e =
      { size := p.size - 1
        map := fun x => if x = e then none else if x = lastE then some i else p.map x
        entities := (p.entities.set i lastE).take (p.entities.length - 1)
        values := (p.values.set i lastV).take (p.entities.length - 1) } := by
  unfold Pool.remove
  rw [h]
  simp only
  rw [hle, hlv]

/-- Well-formedness of a pool: the packed arrays are contiguous and
parallel, and the sparse map and the packed entity array are inverse to
each other. -/
def Pool.WF {V : Type} (p : Pool V) : Prop :=
  p.size = p.entities.length ∧
  p.values.length = p.entities.length ∧
  (∀ e i, p.map e = some i → p.entities[i]? = some e) ∧
  (∀ i x, p.entities[i]? = some x → p.map x = some i)

/-- An empty pool. -/
def Pool.empty (V : Type) : Pool V :=
  { size := 0, map := fun _ => none, entities := [], values := [] }

/-- One mutation of a pool. -/
inductive PoolOp (V : Type) where
  | set (e : Nat) (v : V)
  | remove (e : Nat)

/-- Apply one mutation. -/
def poolStep {V : Type} (p : Pool V) : PoolOp V → Pool V
  | .set e v => p.set e v
  | .remove e => p.remove e

/-- Run a sequence of mutations from the empty pool. -/
def runPool {V : Type} (ops : List (PoolOp V)) : Pool V :=
  ops.foldl poolStep (Pool.empty V)

/-- Update of the last-value-set bookkeeping by one mutation. -/
def lastUpd {V : Type} (g : Nat → Option V) : PoolOp V → Nat → Option V
  | .set e v, x => if x = e then some v else g x
  | .remove e, x => if x = e then none else g x

/-- The last value set for each entity by a sequence of mutations
(`none` when the entity was never set, or was removed afterwards). -/
def lastSet {V : Type} (ops : List (PoolOp V)) : Nat → Option V :=
  ops.foldl lastUpd (fun _ => none)

theorem Pool.WF.map_lt {V : Type} {p : Pool V} (hw : p.WF) {e i : Nat}
    (h : p.map e = some i) : i < p.entities.length := by
  have h3 := hw.2.2.1 e i h
  by_contra hge
  rw [List.getElem?_eq_none (by omega)] at h3
  exact Option.noConfusion h3

theorem Pool.WF.map_entity {V : Type} {p : Pool V} (hw : p.WF) {e i : Nat}
    (h : p.map e = some i) : p.entities[i]? = some e :=
  hw.2.2.1 e i h

theorem Pool.WF.map_inj {V : Type} {p : Pool V} (hw : p.WF) {e e' i : Nat}
    (h : p.map e = some i) (h' : p.map e' = some i) : e = e' := by
  have h1 := hw.2.2.1 e i h
  have h2 := hw.2.2.1 e' i h'
  rw [h1] at h2
  exact Option.some_inj.mp h2

theorem Pool.empty_WF (V : Type) : (Pool.empty V).WF := by
  refine ⟨rfl, rfl, ?_, ?_⟩
  · intro e i h
    exact Option.noConfusion h
  · intro i x h
    simp [Pool.empty] at h

theorem Pool.empty_get (V : Type) (x : Nat) : (Pool.empty V).get x = none := rfl

theorem Pool.set_WF {V : Type} {p : Pool V} (hw : p.WF) (e : Nat) (v : V) :
    (p.set e v).WF := by
  obtain ⟨h1, h2, h3, h4⟩ := hw
  cases hme : p.map e with
  | some i =>
      rw [Pool.set_of_mem hme]
      exact ⟨h1, by simpa using h2, h3, h4⟩
  | none =>
      rw [Pool.set_of_not_mem hme]
      refine ⟨by simp [h1], by simp [h2], ?_, ?_⟩
      · intro x j hj
        simp only at hj
        by_cases hx : x = e
        · subst hx
          rw [if_pos rfl] at hj
          cases hj
          simp
        · rw [if_neg hx] at hj
          have h5 := h3 x j hj
          have hlt : j < p.entities.length := by
            by_contra hge
            rw [List.getElem?_eq_none (by omega)] at h5
            exact Option.noConfusion h5
          rw [List.getElem?_append_left hlt]
          exact h5
      · intro j x hj
        simp only at hj ⊢
        rcases Nat.lt_trichotomy j p.entities.length with hlt | heq | hgt
        · rw [List.getElem?_append_left hlt] at hj
          have h5 := h4 j x hj
          have hxe : x ≠ e := by
            intro hx
            subst hx
            rw [hme] at h5
            exact Option.noConfusion h5
          rw [if_neg hxe]
          exact h5
        · subst heq
          rw [List.getElem?_concat_length] at hj
          cases hj
          simp
        · rw [List.getElem?_eq_none (by simp; omega)] at hj
          exact Option.noConfusion hj

theorem Pool.set_get {V : Type} {p : Pool V} (hw : p.WF) (e : Nat) (v : V) (x : Nat) :
    (p.set e v).get x = if x = e then some v else p.get x := by
  obtain ⟨h1, h2, h3, h4⟩ := hw
  cases hme : p.map e with
  | some i =>
      have hilt : i < p.entities.length := Pool.WF.map_lt ⟨h1, h2, h3, h4⟩ hme
      rw [Pool.set_of_mem hme]
      unfold Pool.get
      by_cases hx : x = e
      · subst hx
        rw [hme]
        simp only [if_pos rfl, Option.some_bind]
        exact List.getElem?_set_self (by omega)
      · rw [if_neg hx]
        cases hmx : p.map x with
        | none => simp
        | some j =>
            have hji : j ≠ i := fun hji =>
              hx (Pool.WF.map_inj ⟨h1, h2, h3, h4⟩ (hji ▸ hmx) hme)
            simp only [Option.some_bind]
            exact List.getElem?_set_ne (Ne.symm hji)
  | none =>
      rw [Pool.set_of_not_mem hme]
      unfold Pool.get
      by_cases hx : x = e
      · subst hx
        simp [← h2]
      · simp only [hx, if_false, if_neg hx]
        cases hmx : p.map x with
        | none => simp
        | some j =>
            have hjlt : j < p.values.length := by
              rw [h2]
              exact Pool.WF.map_lt ⟨h1, h2, h3, h4⟩ hmx
            simp only [Option.some_bind]
            exact List.getElem?_append_left hjlt

theorem Pool.remove_WF {V : Type} {p : Pool V} (hw : p.WF) (e : Nat) :
    (p.remove e).WF := by
  obtain ⟨h1, h2, h3, h4⟩ := hw
  cases hme : p.map e with
  | none =>
      rw [Pool.remove_of_not_mem hme]
      exact ⟨h1, h2, h3, h4⟩
  | some i =>
      have hilt : i < p.entities.length := Pool.WF.map_lt ⟨h1, h2, h3, h4⟩ hme
      have hie : p.entities[i]? = some e := h3 e i hme
      have hnlt : p.entities.length - 1 < p.entities.length := by omega
      obtain ⟨lastE, hle⟩ : ∃ a, p.entities[p.entities.length - 1]? = some a := by
        rw [List.getElem?_eq_getElem hnlt]
        exact ⟨_, rfl⟩
      obtain ⟨lastV, hlv⟩ : ∃ a, p.values[p.entities.length - 1]? = some a := by
        rw [List.getElem?_eq_getElem (by omega)]
        exact ⟨_, rfl⟩
      have hml : p.map lastE = some (p.entities.length - 1) := h4 _ lastE hle
      rw [Pool.remove_of_mem hme hle hlv]
      refine ⟨by simp [h1], by simp [h2], ?_, ?_⟩
      · intro x j hj
        simp only at hj
        by_cases hx : x = e
        · rw [if_pos hx] at hj
          exact Option.noConfusion hj
        · rw [if_neg hx] at hj
          by_cases hxl : x = lastE
          · rw [if_pos hxl] at hj
            cases hj
            subst hxl
            have hin : i ≠ p.entities.length - 1 := by
              intro hin
              rw [hin, hle] at hie
              exact hx (Option.some_inj.mp hie)
            rw [List.getElem?_take]
            rw [if_pos (by omega), List.getElem?_set_self (by omega)]
          · rw [if_neg hxl] at hj
            have h5 := h3 x j hj
            have hjlt : j < p.entities.length := Pool.WF.map_lt ⟨h1, h2, h3, h4⟩ hj
            have hji : j ≠ i := by
              intro hji
              exact hx (Pool.WF.map_inj ⟨h1, h2, h3, h4⟩ hj (hji ▸ hme))
            have hjn : j ≠ p.entities.length - 1 := by
              intro hjn
              rw [hjn, hle] at h5
              exact hxl (Option.some_inj.mp h5).symm
            rw [List.getElem?_take, if_pos (by omega), List.getElem?_set_ne (Ne.symm hji)]
            exact h5
      · intro j x hj
        simp only at hj ⊢
        rw [List.getElem?_take] at hj
        by_cases hjn : j < p.entities.length - 1
        · rw [if_pos hjn] at hj
          by_cases hji : j = i
          · subst hji
            rw [List.getElem?_set_self (by omega)] at hj
            cases hj
            have hxe : lastE ≠ e := by
              intro hxe
              rw [hxe, hme] at hml
              have h6 := Option.some_inj.mp hml
              omega
            simp [hxe]
          · rw [List.getElem?_set_ne (Ne.symm hji)] at hj
            have h5 := h4 j x hj
            have hxe : x ≠ e := by
              intro hxe
              rw [hxe, hme] at h5
              exact hji (Option.some_inj.mp h5).symm
            have hxl : x ≠ lastE := by
              intro hxl
              rw [hxl, hml] at h5
              have := Option.some_inj.mp h5
              omega
            rw [if_neg hxe, if_neg hxl]
            exact h5
        · rw [if_neg hjn] at hj
          exact Option.noConfusion hj

theorem Pool.remove_get {V : Type} {p : Pool V} (hw : p.WF) (e : Nat) (x : Nat) :
    (p.remove e).get x = if x = e then none else p.get x := by
  obtain ⟨h1, h2, h3, h4⟩ := hw
  cases hme : p.map e with
  | none =>
      rw [Pool.remove_of_not_mem hme]
      by_cases hx : x = e
      · subst hx
        simp [Pool.get, hme]
      · rw [if_neg hx]
  | some i =>
      have hilt : i < p.entities.length := Pool.WF.map_lt ⟨h1, h2, h3, h4⟩ hme
      have hie : p.entities[i]? = some e := h3 e i hme
      have hnlt : p.entities.length - 1 < p.entities.length := by omega
      obtain ⟨lastE, hle⟩ : ∃ a, p.entities[p.entities.length - 1]? = some a := by
        rw [List.getElem?_eq_getElem hnlt]
        exact ⟨_, rfl⟩
      obtain ⟨lastV, hlv⟩ : ∃ a, p.values[p.entities.length - 1]? = some a := by
        rw [List.getElem?_eq_getElem (by omega)]
        exact ⟨_, rfl⟩
      have hml : p.map lastE = some (p.entities.length - 1) := h4 _ lastE hle
      rw [Pool.remove_of_mem hme hle hlv]
      unfold Pool.get
      by_cases hx : x = e
      · simp [hx]
      · rw [if_neg hx]
        simp only [if_neg hx]
        by_cases hxl : x = lastE
        · subst hxl
          have hxe : x ≠ e := hx
          rw [if_pos rfl, hml]
          simp only [Option.some_bind]
          have hin : i ≠ p.entities.length - 1 := by
            intro hin
            rw [hin, hle] at hie
            exact hx (Option.some_inj.mp hie)
          rw [List.getElem?_take, if_pos (by omega), List.getElem?_set_self (by omega)]
          exact hlv.symm
        · rw [if_neg hxl]
          cases hmx : p.map x with
          | none => simp
          | some j =>
              have hjlt : j < p.entities.length := Pool.WF.map_lt ⟨h1, h2, h3, h4⟩ hmx
              have hji : j ≠ i := by
                intro hji
                exact hx (Pool.WF.map_inj ⟨h1, h2, h3, h4⟩ hmx (hji ▸ hme))
              have hjn : j ≠ p.entities.length - 1 := by
                intro hjn
                exact hxl (Pool.WF.map_inj ⟨h1, h2, h3, h4⟩ (hjn ▸ hmx) hml)
              simp only [Option.some_bind]
              rw [List.getElem?_take, if_pos (by omega), List.getElem?_set_ne (Ne.symm hji)]

theorem Pool.remove_swap_spec {V : Type} {p : Pool V} (hw : p.WF) {e i : Nat}
    (hme : p.map e = some i) (hi : i + 1 < p.entities.length) :
    ∃ m, p.entities[p.entities.length - 1]? = some m ∧
      (p.remove e).entities[i]? = some m ∧
      (p.remove e).map m = some i ∧
      (p.remove e).entities.length + 1 = p.entities.length := by
  obtain ⟨h1, h2, h3, h4⟩ := hw
  have hilt : i < p.entities.length := by omega
  have hie : p.entities[i]? = some e := h3 e i hme
  have hnlt : p.entities.length - 1 < p.entities.length := by omega
  obtain ⟨lastE, hle⟩ : ∃ a, p.entities[p.entities.length - 1]? = some a := by
    rw [List.getElem?_eq_getElem hnlt]
    exact ⟨_, rfl⟩
  obtain ⟨lastV, hlv⟩ : ∃ a, p.values[p.entities.length - 1]? = some a := by
    rw [List.getElem?_eq_getElem (by omega)]
    exact ⟨_, rfl⟩
  have hml : p.map lastE = some (p.entities.length - 1) := h4 _ lastE hle
  have hxe : lastE ≠ e := by
    intro hxe
    rw [hxe, hme] at hml
    have := Option.some_inj.mp hml
    omega
  refine ⟨lastE, hle, ?_, ?_, ?_⟩
  · rw [Pool.remove_of_mem hme hle hlv]
    simp only
    rw [List.getElem?_take, if_pos (by omega), List.getElem?_set_self (by omega)]
  · rw [Pool.remove_of_mem hme hle hlv]
    simp [hxe]
  · rw [Pool.remove_of_mem hme hle hlv]
    simp only [List.length_take, List.length_set]
    omega

theorem runPool_aux {V : Type} (ops : List (PoolOp V)) (p : Pool V) (g : Nat → Option V)
    (hw : p.WF) (hg : ∀ x, p.get x = g x) :
    (ops.foldl poolStep p).WF ∧
      ∀ x, (ops.foldl poolStep p).get x = ops.foldl lastUpd g x := by
  induction ops generalizing p g with
  | nil => exact ⟨hw, hg⟩
  | cons op rest ih =>
      simp only [List.foldl_cons]
      cases op with
      | set e v =>
          refine ih (p.set e v) (lastUpd g (.set e v)) (Pool.set_WF hw e v) ?_
          intro x
          rw [Pool.set_get hw e v x]
          simp only [lastUpd]
          by_cases hx : x = e <;> simp [hx, hg x]
      | remove e =>
          refine ih (p.remove e) (lastUpd g (.remove e)) (Pool.remove_WF hw e) ?_
          intro x
          rw [Pool.remove_get hw e x]
          simp only [lastUpd]
          by_cases hx : x = e <;> simp [hx, hg x]

/-- Every pool reached by a sequence of mutations from the empty pool is
well-formed. -/
theorem runPool_WF {V : Type} (ops : List (PoolOp V)) : (runPool ops).WF :=
  (runPool_aux ops (Pool.empty V) (fun _ => none) (Pool.empty_WF V) (fun _ => rfl)).1

/-- The value a reached pool stores for an entity is the last value set. -/
theorem runPool_get {V : Type} (ops : List (PoolOp V)) (x : Nat) :
    (runPool ops).get x = lastSet ops x :=
  (runPool_aux ops (Pool.empty V) (fun _ => none) (Pool.empty_WF V) (fun _ => rfl)).2 x

theorem Pool.has_eq_get_isSome {V : Type} {p : Pool V} (hw : p.WF) (e : Nat) :
    p.has e = (p.get e).isSome := by
  unfold Pool.has Pool.get
  cases hme : p.map e with
  | none => simp
  | some i =>
      have hilt := Pool.WF.map_lt hw hme
      have h2 := hw.2.1
      simp only [Option.some_bind]
      rw [List.getElem?_eq_getElem (show i < p.values.length by omega)]
      simp

theorem Pool.mem_entities_iff {V : Type} {p : Pool V} (hw : p.WF) (e : Nat) :
    e ∈ p.entities ↔ p.has e = true := by
  constructor
  · intro hm
    obtain ⟨i, hi, heq⟩ := List.getElem_of_mem hm
    have : p.entities[i]? = some e := by
      rw [List.getElem?_eq_getElem hi, heq]
    rw [Pool.has, hw.2.2.2 i e this]
    rfl
  · intro hh
    rw [Pool.has] at hh
    cases hme : p.map e with
    | none => rw [hme] at hh; exact Bool.noConfusion hh
    | some i =>
        have := hw.2.2.1 e i hme
        exact List.getElem?_mem this

/-- C1: sparse-set integrity.  After any sequence of set/remove mutations on
a pool, for every entity `e` that has the component, the sparse entry
`map[e]` is defined, `entities[map[e]] = e` and `values[map[e]]` is the last
value set for `e`; `map[e]` is defined exactly when `e` currently has the
component; and removal keeps the packed arrays contiguous by swap-with-last,
patching the moved entity's map slot. -/
theorem C1_sparse_set_integrity {V : Type} (ops : List (PoolOp V)) :
    (runPool ops).WF ∧
    (∀ e, (runPool ops).has e = true ↔ (lastSet ops e).isSome = true) ∧
    (∀ e i, (runPool ops).map e = some i →
      (runPool ops).entities[i]? = some e ∧ (runPool ops).values[i]? = lastSet ops e) ∧
    (∀ e i, (runPool ops).map e = some i → i + 1 < (runPool ops).entities.length →
      ∃ m, (runPool ops).entities[(runPool ops).entities.length - 1]? = some m ∧
        ((runPool ops).remove e).entities[i]? = some m ∧
        ((runPool ops).remove e).map m = some i ∧
        ((runPool ops).remove e).entities.length + 1 = (runPool ops).entities.length) := by
  have hw := runPool_WF ops
  refine ⟨hw, ?_, ?_, ?_⟩
  · intro e
    rw [Pool.has_eq_get_isSome hw e, runPool_get ops e]
  · intro e i h
    refine ⟨hw.2.2.1 e i h, ?_⟩
    have hc := runPool_get ops e
    unfold Pool.get at hc
    rw [h] at hc
    simpa using hc
  · intro e i h hi
    exact Pool.remove_swap_spec hw h hi

/-- Modelled from the spec: a component type is an opaque numeric id issued
by a monotonic factory, flagged as tag (valueless) or value. -/
structure ComponentTy where
  id : Nat
  isTag : Bool

/-- Modelled from the spec: `ecr.component()` issues a fresh value-component
id from the monotonic factory state. -/
def mkComponent (next : Nat) : ComponentTy × Nat :=
  (⟨next, false⟩, next + 1)

/-- Modelled from the spec: `ecr.tag()` issues a fresh component id flagged
as a valueless tag. -/
def mkTag (next : Nat) : ComponentTy × Nat :=
  (⟨next, true⟩, next + 1)

/-- Modelled from the spec: `ecr.is_tag` reads the tag flag. -/
def is_tag (c : ComponentTy) : Bool := c.isTag

/-- Modelled from the spec: the pool of a tag component carries no values
array — only the size, the sparse map and the packed entity array. -/
structure TagPool where
  size : Nat
  map : Nat → Option Nat
  entities : List Nat

/-- Modelled from the spec: membership test on a tag pool. -/
def TagPool.has (p : TagPool) (e : Nat) : Bool := (p.map e).isSome

/-- Modelled from the spec: on a tag pool, `set` degrades to a pure
membership add — the supplied value is dropped, and there is no values
array to write. -/
def TagPool.set {V : Type} (p : TagPool) (e : Nat) (_v : V) : TagPool :=
  match p.map e with
  | some _ => p
  | none =>
      { size := p.size + 1
        map := fun x => if x = e then some p.entities.length else p.map x
        entities := p.entities ++ [e] }

/-- Modelled from the spec: `get` on a tag pool never yields a meaningful
value — there is no values array to read, so it is always empty. -/
def TagPool.get (V : Type) (_p : TagPool) (_e : Nat) : Option V := none

/-- C6: tag component semantics.  `tag()` issues a component flagged as a
tag; its pool carries no values array, so `set` on it is a pure membership
add (afterwards `has` is true and the result does not depend on the value
supplied), and `get` never yields a meaningful value. -/
theorem C6_tag_semantics {V : Type} (next : Nat) (p : TagPool) (e : Nat) (v w : V) :
    is_tag (mkTag next).1 = true ∧
    (p.set e v).has e = true ∧
    p.set e v = p.set e w ∧
    TagPool.get V p e = none := by
  refine ⟨rfl, ?_, rfl, rfl⟩
  unfold TagPool.set TagPool.has
  cases hme : p.map e with
  | some i => simp [hme]
  | none => simp

/-- Modelled from the spec: a view yields, in the driving pool's packed
order, every entity of the driving pool that is in all included pools and
in none of the excluded pools. -/
def viewList {V : Type} (drive : Pool V) (incl : List (Pool V)) (excl : List (Pool V)) :
    List Nat :=
  drive.entities.filter fun e =>
    (incl.all fun q => q.has e) && (excl.all fun q => !q.has e)

theorem viewList_mem_iff {V : Type} {drive : Pool V} (hw : drive.WF)
    (incl excl : List (Pool V)) (e : Nat) :
    e ∈ viewList drive incl excl ↔
      drive.has e = true ∧ (∀ q ∈ incl, q.has e = true) ∧ (∀ q ∈ excl, q.has e = false) := by
  unfold viewList
  rw [List.mem_filter, Pool.mem_entities_iff hw]
  simp [List.all_eq_true]

/-- C3: view filter correctness.  Over any reachable registry state,
`view(A,B).exclude(C)` yields exactly the entities having A and B and not
C, and the yielded set does not depend on which included pool is pinned as
the driving pool via `use`. -/
theorem C3_view_filter_correctness {V : Type}
    (opsA opsB opsC : List (PoolOp V)) (e : Nat) :
    (e ∈ viewList (runPool opsA) [runPool opsA, runPool opsB] [runPool opsC] ↔
      ((runPool opsA).has e = true ∧ (runPool opsB).has e = true ∧
        (runPool opsC).has e = false)) ∧
    (e ∈ viewList (runPool opsA) [runPool opsA, runPool opsB] [runPool opsC] ↔
      e ∈ viewList (runPool opsB) [runPool opsA, runPool opsB] [runPool opsC]) := by
  have hA := runPool_WF opsA
  have hB := runPool_WF opsB
  have h1 := viewList_mem_iff hA [runPool opsA, runPool opsB] [runPool opsC] e
  have h2 := viewList_mem_iff hB [runPool opsA, runPool opsB] [runPool opsC] e
  rw [h1, h2]
  constructor
  · constructor
    · rintro ⟨hda, hincl, hexcl⟩
      exact ⟨hda, hincl _ (by simp), hexcl _ (by simp)⟩
    · rintro ⟨ha, hb, hc⟩
      refine ⟨ha, ?_, ?_⟩
      · intro q hq
        rcases List.mem_pair.mp hq with rfl | rfl
        · exact ha
        · exact hb
      · intro q hq
        rcases List.mem_singleton.mp hq with rfl
        exact hc
  · constructor
    · rintro ⟨hda, hincl, hexcl⟩
      exact ⟨hincl _ (by simp), hincl, hexcl⟩
    · rintro ⟨hdb, hincl, hexcl⟩
      exact ⟨hincl _ (by simp), hincl, hexcl⟩

/-- Modelled from the spec: observer state — the observer's own
set-semantics dirty entity list and the persist flag controlling
auto-clear (the repository declares the `Observer` interface only). -/
structure Obs where
  dirty : List Nat
  persist : Bool

/-- Modelled from the spec: an add/change signal fire inserts the entity
into the observer's dirty set, idempotent on repeat. -/
def Obs.mark (o : Obs) (e : Nat) : Obs :=
  if e ∈ o.dirty then o else { o with dirty := o.dirty ++ [e] }

/-- Modelled from the spec: a complete iteration pass walks the dirty set,
re-validating each entity at iteration time (`valid`), then auto-clears
the dirty set unless `persist()` was called. -/
def Obs.iterate (o : Obs) (valid : Nat → Bool) : List Nat × Obs :=
  (o.dirty.filter valid, if o.persist then o else { o with dirty := [] })

/-- C5: observer drain semantics.  A complete pass yields exactly the
recorded dirty entities that still validate; without `persist()` the set
auto-clears, so a second pass yields nothing; with `persist()` the second
pass yields the same entities again.  Marking is idempotent on repeat. -/
theorem C5_observer_drain (dirty : List Nat) (valid : Nat → Bool) (e : Nat) :
    ((Obs.mk dirty false).iterate valid).1 = dirty.filter valid ∧
    (((Obs.mk dirty false).iterate valid).2.iterate valid).1 = [] ∧
    ((Obs.mk dirty true).iterate valid).1 = dirty.filter valid ∧
    (((Obs.mk dirty true).iterate valid).2.iterate valid).1 = dirty.filter valid ∧
    ((Obs.mk dirty false).mark e).mark e = (Obs.mk dirty false).mark e := by
  refine ⟨rfl, rfl, rfl, rfl, ?_⟩
  unfold Obs.mark
  by_cases he : e ∈ dirty
  · simp [he]
  · simp [he]

/-- Modelled from the spec: whether a requested component list shares a
component with an already registered group. -/
def overlapsAny (cs : List Nat) (gs : List (List Nat)) : Bool :=
  gs.any fun g => g.any fun c => cs.contains c

/-- The error kinds the engine raises. -/
inductive EcrError where
  | CapacityExceeded
  | GroupConflict
deriving DecidableEq

/-- Modelled from the spec: registering a group fails at creation with a
configuration error when any of its components is already owned by another
group; otherwise the group is recorded. -/
def registerGroup (gs : List (List Nat)) (cs : List Nat) :
    Except EcrError (List (List Nat)) :=
  if overlapsAny cs gs then .error .GroupConflict else .ok (gs ++ [cs])

/-- Run a sequence of group registrations; a failed registration leaves the
registered set unchanged. -/
def runGroupRegs (reqs : List (List Nat)) : List (List Nat) :=
  reqs.foldl
    (fun gs cs =>
      match registerGroup gs cs with
      | .ok gs' => gs'
      | .error _ => gs)
    []

theorem runGroupRegs_aux (reqs : List (List Nat)) (gs : List (List Nat))
    (h : List.Pairwise (fun g g' => ∀ c ∈ g, c ∉ g') gs) :
    List.Pairwise (fun g g' => ∀ c ∈ g, c ∉ g')
      (reqs.foldl
        (fun gs cs =>
          match registerGroup gs cs with
          | .ok gs' => gs'
          | .error _ => gs)
        gs) := by
  induction reqs generalizing gs with
  | nil => exact h
  | cons cs rest ih =>
      simp only [List.foldl_cons]
      unfold registerGroup
      by_cases hov : overlapsAny cs gs = true
      · rw [if_pos hov]
        exact ih gs h
      · rw [if_neg hov]
        refine ih (gs ++ [cs]) ?_
        rw [List.pairwise_append]
        refine ⟨h, List.pairwise_singleton _ _, ?_⟩
        intro g hg b hb x hxg hxb
        rcases List.mem_singleton.mp hb
        apply hov
        unfold overlapsAny
        rw [List.any_eq_true]
        refine ⟨g, hg, ?_⟩
        rw [List.any_eq_true]
        exact ⟨x, hxg, List.elem_eq_true_of_mem hxb⟩

/-- C7: group exclusivity.  Registering a group that shares a component
with an existing group fails at creation with the GroupConflict
configuration error, and consequently after any sequence of registrations
every component belongs to at most one registered group. -/
theorem C7_group_exclusivity (gs : List (List Nat)) (cs : List Nat)
    (reqs : List (List Nat)) :
    ((∃ g ∈ gs, ∃ c ∈ g, c ∈ cs) → registerGroup gs cs = .error .GroupConflict) ∧
    List.Pairwise (fun g g' => ∀ c ∈ g, c ∉ g') (runGroupRegs reqs) := by
  constructor
  · rintro ⟨g, hg, c, hcg, hcc⟩
    unfold registerGroup
    rw [if_pos]
    unfold overlapsAny
    rw [List.any_eq_true]
    refine ⟨g, hg, ?_⟩
    rw [List.any_eq_true]
    exact ⟨c, hcg, by simpa using hcc⟩
  · exact runGroupRegs_aux reqs [] List.Pairwise.nil

/-- Modelled from the spec: the reserved context entity id, outside normal
allocation. -/
def contextId : Nat := 1048576

/-- Modelled from the spec: a registry's entity book-keeping relevant to the
context entity — the live entity list and the fresh-id counter of normal
allocation. -/
structure CtxReg where
  live : List Nat
  nextId : Nat

/-- Modelled from the spec: `context()` lazily creates the reserved context
entity on first call, and thereafter always returns the same singleton
entity. -/
def CtxReg.context (r : CtxReg) : CtxReg × Nat :=
  if r.live.contains contextId then (r, contextId)
  else ({ r with live := r.live ++ [contextId] }, contextId)

/-- Modelled from the spec: `create()` issues a fresh id from normal
allocation. -/
def CtxReg.create (r : CtxReg) : CtxReg × Nat :=
  ({ live := r.live ++ [r.nextId], nextId := r.nextId + 1 }, r.nextId)

/-- Modelled from the spec: normal `destroy()` removes an entity from the
registry, but cannot remove the reserved context entity. -/
def CtxReg.destroy (r : CtxReg) (e : Nat) : CtxReg :=
  if e = contextId then r else { r with live := r.live.filter fun x => x ≠ e }

/-- A registry mutation relevant to the context entity's lifetime. -/
inductive CtxOp where
  | create
  | destroy (e : Nat)
  | context

/-- Apply one mutation. -/
def ctxStep (r : CtxReg) : CtxOp → CtxReg
  | .create => r.create.1
  | .destroy e => r.destroy e
  | .context => r.context.1

theorem ctxStep_preserves (r : CtxReg) (op : CtxOp)
    (h : r.live.contains contextId = true) :
    (ctxStep r op).live.contains contextId = true := by
  have hm : contextId ∈ r.live := List.mem_of_elem_eq_true h
  cases op with
  | create =>
      simp only [ctxStep, CtxReg.create]
      exact List.elem_eq_true_of_mem (List.mem_append_left _ hm)
  | destroy e =>
      simp only [ctxStep, CtxReg.destroy]
      by_cases he : e = contextId
      · rw [if_pos he]
        exact h
      · rw [if_neg he]
        refine List.elem_eq_true_of_mem ?_
        rw [List.mem_filter]
        refine ⟨hm, ?_⟩
        simp only [ne_eq, decide_eq_true_eq]
        intro hc
        exact he hc.symm
  | context =>
      simp only [ctxStep, CtxReg.context]
      rw [if_pos h]
      exact h

theorem CtxReg.context_of_contains {r : CtxReg} (h : r.live.contains contextId = true) :
    r.context = (r, contextId) := by
  unfold CtxReg.context
  rw [if_pos h]

theorem CtxReg.context_contains (r : CtxReg) :
    r.context.1.live.contains contextId = true := by
  unfold CtxReg.context
  by_cases h : r.live.contains contextId = true
  · rw [if_pos h]
    exact h
  · rw [if_neg h]
    refine List.elem_eq_true_of_mem ?_
    simp

theorem ctxRun_preserves (ops : List CtxOp) (r : CtxReg)
    (h : r.live.contains contextId = true) :
    (List.foldl ctxStep r ops).live.contains contextId = true := by
  induction ops generalizing r with
  | nil => exact h
  | cons op rest ih =>
      simp only [List.foldl_cons]
      exact ih _ (ctxStep_preserves r op h)

/-- C8: context singleton.  The first `context()` call creates the context
entity; every call returns that same singleton entity and leaves it
contained; and once created it remains contained across any sequence of
create/destroy/context operations, since normal `destroy()` cannot remove
it. -/
theorem C8_context_singleton (r : CtxReg) (ops : List CtxOp) :
    (r.context.2 = contextId) ∧
    (r.context.1.context = (r.context.1, contextId)) ∧
    (r.context.1.live.contains contextId = true) ∧
    ((List.foldl ctxStep r.context.1 ops).live.contains contextId = true) := by
  have hcontained := CtxReg.context_contains r
  refine ⟨?_, ?_, hcontained, ?_⟩
  · unfold CtxReg.context
    by_cases h : r.live.contains contextId = true
    · rw [if_pos h]
    · rw [if_neg h]
  · exact CtxReg.context_of_contains hcontained
  · exact ctxRun_preserves ops _ hcontained

/-- The maximum number of concurrently live entities (spec section 3:
the entity index space is bounded at 1,048,575). -/
def MAX_ENTITIES : Nat := 1048575

/-- Modelled from the spec: entity allocator state — the reuse generation
of every index issued so far, and the free list of released indexes. -/
structure Alloc where
  gens : List Nat
  free : List Nat

/-- The number of concurrently live entities. -/
def Alloc.liveCount (a : Alloc) : Nat := a.gens.length - a.free.length

/-- Allocator well-formedness: no more indexes than the maximum are ever
issued, and the free list holds distinct issued indexes. -/
def Alloc.AInv (a : Alloc) : Prop :=
  a.gens.length ≤ MAX_ENTITIES ∧ a.free.Nodup ∧ ∀ i ∈ a.free, i < a.gens.length

/-- Modelled from the spec: `create()` pops a recycled index from the free
list, or claims a fresh index while fewer than the maximum number of
entities are concurrently live; exceeding the maximum fails the creating
call with CapacityExceeded and leaves the allocator unchanged — no
implicit eviction. -/
def Alloc.create (a : Alloc) : Alloc × Except EcrError (Nat × Nat) :=
  match a.free with
  | i :: rest => ({ gens := a.gens, free := rest }, .ok (i, a.gens.getD i 0))
  | [] =>
      if a.gens.length < MAX_ENTITIES then
        ({ gens := a.gens ++ [0], free := [] }, .ok (a.gens.length, 0))
      else (a, .error .CapacityExceeded)

/-- Modelled from the spec: `release`/`destroy` returns a live index to the
free list and bumps its reuse generation so stale ids become
distinguishable. -/
def Alloc.release (a : Alloc) (i : Nat) : Alloc :=
  if i < a.gens.length ∧ i ∉ a.free then
    { gens := a.gens.set i (a.gens.getD i 0 + 1), free := i :: a.free }
  else a

theorem Alloc.free_length_le {a : Alloc} (hinv : a.AInv) :
    a.free.length ≤ a.gens.length := by
  obtain ⟨_, hnd, hb⟩ := hinv
  have h1 : a.free.toFinset.card = a.free.length := List.toFinset_card_of_nodup hnd
  have h2 : a.free.toFinset ⊆ Finset.range a.gens.length := by
    intro x hx
    exact Finset.mem_range.mpr (hb x (List.mem_toFinset.mp hx))
  have h3 := Finset.card_le_card h2
  rw [h1, Finset.card_range] at h3
  exact h3

/-- C4: capacity bound.  When the maximum number of entities
(1,048,575) is concurrently live, `create()` fails with CapacityExceeded
and leaves the allocator unchanged (no implicit eviction); and after
releasing any one live entity a subsequent `create()` succeeds. -/
theorem C4_capacity_bound (a : Alloc) :
    (a.AInv → a.liveCount = MAX_ENTITIES →
      a.create.2 = .error .CapacityExceeded ∧ a.create.1 = a) ∧
    (∀ i, i < a.gens.length → i ∉ a.free →
      ∃ id, (a.release i).create.2 = .ok id) := by
  constructor
  · intro hinv hl
    have hle := Alloc.free_length_le hinv
    have hmax := hinv.1
    unfold Alloc.liveCount at hl
    have hfz : a.free.length = 0 := by omega
    have hfe : a.free = [] := List.eq_nil_of_length_eq_zero hfz
    have hgl : ¬ a.gens.length < MAX_ENTITIES := by omega
    unfold Alloc.create
    rw [hfe]
    simp only
    rw [if_neg hgl]
    exact ⟨rfl, rfl⟩
  · intro i hlt hnm
    unfold Alloc.release
    rw [if_pos ⟨hlt, hnm⟩]
    exact ⟨(i, (a.gens.set i (a.gens.getD i 0 + 1)).getD i 0), rfl⟩

/-- Modelled from the spec: a signal is its ordered listener list. -/
structure Sig (L : Type) where
  listeners : List L

/-- Modelled from the spec: one dispatch runs listeners by index, the
listener count being captured when the fire starts; a running listener may
connect new listeners (`conns`), which are appended to the live list and
lie beyond the captured count.  Returns the invocation log and the
listener list left after the dispatch. -/
def fireFrom {L : Type} (conns : L → List L) : Nat → Nat → List L → List L × List L
  | _, 0, regs => ([], regs)
  | k, m + 1, regs =>
      match regs[k]? with
      | some l =>
          let r := fireFrom conns (k + 1) m (regs ++ conns l)
          (l :: r.1, r.2)
      | none => ([], regs)

/-- Modelled from the spec: firing a signal dispatches over the listener
count captured at fire start. -/
def Sig.fire {L : Type} (s : Sig L) (conns : L → List L) : List L × Sig L :=
  ((fireFrom conns 0 s.listeners.length s.listeners).1,
    ⟨(fireFrom conns 0 s.listeners.length s.listeners).2⟩)

theorem fireFrom_spec {L : Type} (conns : L → List L) :
    ∀ (m k : Nat) (regs : List L), k + m ≤ regs.length →
      (fireFrom conns k m regs).1 = (regs.drop k).take m ∧
      (fireFrom conns k m regs).2 = regs ++ ((regs.drop k).take m).flatMap conns := by
  intro m
  induction m with
  | zero =>
      intro k regs _
      simp [fireFrom]
  | succ m ih =>
      intro k regs h
      have hk : k < regs.length := by omega
      have hget : regs[k]? = some (regs.get ⟨k, hk⟩) := List.getElem?_eq_getElem hk
      unfold fireFrom
      rw [hget]
      simp only
      obtain ⟨ih1, ih2⟩ := ih (k + 1) (regs ++ conns (regs.get ⟨k, hk⟩))
        (by rw [List.length_append]; omega)
      have hdrop : (regs ++ conns (regs.get ⟨k, hk⟩)).drop (k + 1) =
          regs.drop (k + 1) ++ conns (regs.get ⟨k, hk⟩) :=
        List.drop_append_of_le_length (by omega)
      have htake : ((regs ++ conns (regs.get ⟨k, hk⟩)).drop (k + 1)).take m =
          (regs.drop (k + 1)).take m := by
        rw [hdrop]
        exact List.take_append_of_le_length (by rw [List.length_drop]; omega)
      have hcons : regs.drop k = regs.get ⟨k, hk⟩ :: regs.drop (k + 1) :=
        List.drop_eq_getElem_cons hk
      constructor
      · rw [ih1, htake, hcons, List.take_succ_cons]
      · rw [ih2, htake, hcons, List.take_succ_cons]
        simp [List.append_assoc]

/-- C9: signal dispatch order and in-dispatch connection exclusion.  A fire
invokes exactly the listeners registered at fire start, in registration
order; listeners connected during the dispatch are appended after the
captured count, so they are not invoked in that dispatch and run first on
the next fire. -/
theorem C9_signal_dispatch {L : Type} (s : Sig L) (conns : L → List L) :
    (s.fire conns).1 = s.listeners ∧
    (s.fire conns).2.listeners = s.listeners ++ s.listeners.flatMap conns ∧
    ((s.fire conns).2.fire fun _ => []).1 =
      s.listeners ++ s.listeners.flatMap conns := by
  obtain ⟨h1, h2⟩ := fireFrom_spec conns s.listeners.length 0 s.listeners (by omega)
  simp only [List.drop_zero, List.take_length] at h1 h2
  refine ⟨h1, h2, ?_⟩
  obtain ⟨h3, _⟩ := fireFrom_spec (fun _ => ([] : List L))
    (s.fire conns).2.listeners.length 0 (s.fire conns).2.listeners (by omega)
  simp only [List.drop_zero, List.take_length] at h3
  rw [show ((s.fire conns).2.fire fun _ => []).1 =
    (fireFrom (fun _ => ([] : List L)) 0 (s.fire conns).2.listeners.length
      (s.fire conns).2.listeners).1 from rfl]
  rw [h3]
  exact h2

theorem Pool.set_entities_extends {V : Type} (q : Pool V) (e : Nat) (v : V) :
    ∃ t, (q.set e v).entities = q.entities ++ t := by
  cases hme : q.map e with
  | some i =>
      rw [Pool.set_of_mem hme]
      exact ⟨[], by simp⟩
  | none =>
      rw [Pool.set_of_not_mem hme]
      exact ⟨[e], rfl⟩

theorem foldl_set_entities_extends {V : Type} (l : List (Nat × V)) (q : Pool V) :
    ∃ t, (l.foldl (fun q ev => q.set ev.1 ev.2) q).entities = q.entities ++ t := by
  induction l generalizing q with
  | nil => exact ⟨[], by simp⟩
  | cons ev rest ih =>
      simp only [List.foldl_cons]
      obtain ⟨t1, h1⟩ := Pool.set_entities_extends q ev.1 ev.2
      obtain ⟨t2, h2⟩ := ih (q.set ev.1 ev.2)
      exact ⟨t1 ++ t2, by rw [h2, h1, List.append_assoc]⟩

/-- Modelled from the spec and the declared iteration contract: a single
view/group/observer pass walks the driving pool packed indices captured at
pass start downwards; while an entity is visited, mutations (`muts`) may
set components, and a `set` of an absent entity appends it beyond the
captured range. -/
def viewPass {V : Type} (muts : Nat → List (Nat × V)) : Nat → Pool V → List Nat × Pool V
  | 0, p => ([], p)
  | k + 1, p =>
      match p.entities[k]? with
      | some e =>
          let p2 := (muts e).foldl (fun q ev => q.set ev.1 ev.2) p
          let r := viewPass muts k p2
          (e :: r.1, r.2)
      | none => ([], p)

theorem viewPass_spec {V : Type} (muts : Nat → List (Nat × V)) :
    ∀ (k : Nat) (p : Pool V), k ≤ p.entities.length →
      (viewPass muts k p).1 = (p.entities.take k).reverse ∧
      ∃ t, (viewPass muts k p).2.entities = p.entities ++ t := by
  intro k
  induction k with
  | zero =>
      intro p _
      exact ⟨by simp [viewPass], [], by simp [viewPass]⟩
  | succ k ih =>
      intro p h
      have hk : k < p.entities.length := by omega
      have hget : p.entities[k]? = some (p.entities.get ⟨k, hk⟩) :=
        List.getElem?_eq_getElem hk
      unfold viewPass
      rw [hget]
      simp only
      obtain ⟨t0, h0⟩ :=
        foldl_set_entities_extends (muts (p.entities.get ⟨k, hk⟩)) p
      obtain ⟨ih1, t1, ih2⟩ :=
        ih ((muts (p.entities.get ⟨k, hk⟩)).foldl (fun q ev => q.set ev.1 ev.2) p)
          (by rw [h0, List.length_append]; omega)
      constructor
      · rw [ih1, h0, List.take_append_of_le_length (by omega)]
        have hts : p.entities.take (k + 1) =
            p.entities.take k ++ [p.entities.get ⟨k, hk⟩] := by
          rw [List.take_succ, hget]
          rfl
        rw [hts, List.reverse_append, List.reverse_singleton, List.singleton_append]
      · exact ⟨t0 ++ t1, by rw [ih2, h0, List.append_assoc]⟩

/-- C10: mid-pass addition policy.  A single pass yields exactly the
entities packed in the driving pool at pass start (in particular an entity
appended by a mid-pass `set` is never yielded in that pass); mid-pass
additions only extend the packed array past the captured range, and the
next full pass yields all entities of the resulting pool, including the
newly added ones. -/
theorem C10_mid_pass_additions {V : Type} (p : Pool V)
    (muts : Nat → List (Nat × V)) (e : Nat) :
    (viewPass muts p.entities.length p).1 = p.entities.reverse ∧
    (e ∉ p.entities → e ∉ (viewPass muts p.entities.length p).1) ∧
    (∃ t, (viewPass muts p.entities.length p).2.entities = p.entities ++ t) ∧
    ((viewPass (fun _ => ([] : List (Nat × V)))
        (viewPass muts p.entities.length p).2.entities.length
        (viewPass muts p.entities.length p).2).1 =
      (viewPass muts p.entities.length p).2.entities.reverse) := by
  obtain ⟨h1, ht⟩ := viewPass_spec muts p.entities.length p (le_refl _)
  rw [List.take_length] at h1
  obtain ⟨h2, _⟩ := viewPass_spec (fun _ => ([] : List (Nat × V)))
    (viewPass muts p.entities.length p).2.entities.length
    (viewPass muts p.entities.length p).2 (le_refl _)
  rw [List.take_length] at h2
  refine ⟨h1, ?_, ht, h2⟩
  intro hne hmem
  rw [h1] at hmem
  exact hne (List.mem_reverse.mp hmem)

/-- Modelled from the spec: the group repartitioner relocates entities by
swapping two packed slots and patching the two sparse-map entries. -/
def Pool.swap {V : Type} (p : Pool V) (i j : Nat) : Pool V :=
  match p.entities[i]?, p.entities[j]?, p.values[i]?, p.values[j]? with
  | some ei, some ej, some vi, some vj =>
      { size := p.size
        map := fun x => if x = ei then some j else if x = ej then some i else p.map x
        entities := (p.entities.set i ej).set j ei
        values := (p.values.set i vj).set j vi }
  | _, _, _, _ => p

theorem Pool.swap_eq {V : Type} {p : Pool V} {i j ei ej : Nat} {vi vj : V}
    (hei : p.entities[i]? = some ei) (hej : p.entities[j]? = some ej)
    (hvi : p.values[i]? = some vi) (hvj : p.values[j]? = some vj) :
    p.swap i j =
      { size := p.size
        map := fun x => if x = ei then some j else if x = ej then some i else p.map x
        entities := (p.entities.set i ej).set j ei
        values := (p.values.set i vj).set j vi } := by
  unfold Pool.swap
  rw [hei, hej, hvi, hvj]

theorem Pool.swap_spec {V : Type} {p : Pool V} (hw : p.WF) {i j : Nat}
    (hi : i < p.entities.length) (hj : j < p.entities.length) :
    (p.swap i j).WF ∧
    (p.swap i j).entities.length = p.entities.length ∧
    (∀ k, (p.swap i j).entities[k]? =
      if k = i then p.entities[j]? else if k = j then p.entities[i]? else p.entities[k]?) ∧
    (∀ x, (p.swap i j).has x = p.has x) ∧
    (∀ x, p.map x = some i → (p.swap i j).map x = some j) ∧
    (∀ x, p.map x = some j → (p.swap i j).map x = some i) ∧
    (∀ x m, p.map x = some m → m ≠ i → m ≠ j → (p.swap i j).map x = some m) := by
  obtain ⟨ei, hei⟩ : ∃ a, p.entities[i]? = some a := by
    rw [List.getElem?_eq_getElem hi]
    exact ⟨_, rfl⟩
  obtain ⟨ej, hej⟩ : ∃ a, p.entities[j]? = some a := by
    rw [List.getElem?_eq_getElem hj]
    exact ⟨_, rfl⟩
  obtain ⟨vi, hvi⟩ : ∃ a, p.values[i]? = some a := by
    rw [List.getElem?_eq_getElem (by rw [hw.2.1]; exact hi)]
    exact ⟨_, rfl⟩
  obtain ⟨vj, hvj⟩ : ∃ a, p.values[j]? = some a := by
    rw [List.getElem?_eq_getElem (by rw [hw.2.1]; exact hj)]
    exact ⟨_, rfl⟩
  have hmei : p.map ei = some i := hw.2.2.2 i ei hei
  have hmej : p.map ej = some j := hw.2.2.2 j ej hej
  have hij_of : ei = ej → i = j := by
    intro hcc
    rw [hcc, hmej] at hmei
    exact (Option.some_inj.mp hmei).symm
  have hpt : ∀ k, ((p.entities.set i ej).set j ei)[k]? =
      if k = i then p.entities[j]? else if k = j then p.entities[i]? else p.entities[k]? := by
    intro k
    by_cases hkj : k = j
    · subst hkj
      rw [List.getElem?_set_self (by simpa using hj)]
      by_cases hki : k = i
      · rw [if_pos hki, hki]
        exact hei.symm
      · rw [if_neg hki, if_pos rfl]
        exact hei.symm
    · rw [List.getElem?_set_ne (Ne.symm hkj)]
      by_cases hki : k = i
      · subst hki
        rw [List.getElem?_set_self hi, if_pos rfl]
        exact hej.symm
      · rw [List.getElem?_set_ne (Ne.symm hki), if_neg hki, if_neg hkj]
  rw [Pool.swap_eq hei hej hvi hvj]
  dsimp only
  have hlen : ((p.entities.set i ej).set j ei).length = p.entities.length := by simp
  refine ⟨⟨by rw [hlen]; exact hw.1, by simp [hw.2.1], ?_, ?_⟩, hlen, hpt, ?_, ?_, ?_, ?_⟩
  · intro x m hxm
    dsimp only at hxm ⊢
    by_cases hx1 : x = ei
    · rw [if_pos hx1] at hxm
      cases hxm
      rw [hpt]
      subst hx1
      by_cases hji : j = i
      · rw [if_pos hji, hji]
        exact hei
      · rw [if_neg hji, if_pos rfl]
        exact hei
    · rw [if_neg hx1] at hxm
      by_cases hx2 : x = ej
      · rw [if_pos hx2] at hxm
        cases hxm
        rw [hpt, if_pos rfl]
        subst hx2
        exact hej
      · rw [if_neg hx2] at hxm
        have hmi : m ≠ i := by
          intro hmi
          exact hx1 (Pool.WF.map_inj hw (hmi ▸ hxm) hmei)
        have hmj : m ≠ j := by
          intro hmj
          exact hx2 (Pool.WF.map_inj hw (hmj ▸ hxm) hmej)
        rw [hpt, if_neg hmi, if_neg hmj]
        exact hw.2.2.1 x m hxm
  · intro m x hmx
    dsimp only at hmx ⊢
    rw [hpt] at hmx
    by_cases hmi : m = i
    · rw [if_pos hmi] at hmx
      rw [hej] at hmx
      cases hmx
      by_cases hje : ej = ei
      · rw [if_pos hje, hmi]
        rw [(hij_of hje.symm).symm]
      · rw [if_neg hje, if_pos rfl, hmi]
    · rw [if_neg hmi] at hmx
      by_cases hmj : m = j
      · rw [if_pos hmj] at hmx
        rw [hei] at hmx
        cases hmx
        rw [if_pos rfl, hmj]
      · rw [if_neg hmj] at hmx
        have h5 := hw.2.2.2 m x hmx
        have hx1 : x ≠ ei := by
          intro hx1
          rw [hx1, hmei] at h5
          exact hmi (Option.some_inj.mp h5).symm
        have hx2 : x ≠ ej := by
          intro hx2
          rw [hx2, hmej] at h5
          exact hmj (Option.some_inj.mp h5).symm
        rw [if_neg hx1, if_neg hx2]
        exact h5
  · intro x
    unfold Pool.has
    dsimp only
    by_cases hx1 : x = ei
    · rw [if_pos hx1, hx1, hmei]
      rfl
    · rw [if_neg hx1]
      by_cases hx2 : x = ej
      · rw [if_pos hx2, hx2, hmej]
        rfl
      · rw [if_neg hx2]
  · intro x hx
    have hxe : x = ei := Pool.WF.map_inj hw hx hmei
    rw [if_pos hxe]
  · intro x hx
    have hxe : x = ej := Pool.WF.map_inj hw hx hmej
    by_cases hje : x = ei
    · rw [if_pos hje]
      have hcc : ei = ej := hje.symm.trans hxe
      rw [hij_of hcc]
    · rw [if_neg hje, if_pos hxe]
  · intro x m hx hmi hmj
    have hx1 : x ≠ ei := by
      intro hx1
      rw [hx1, hmei] at hx
      exact hmi (Option.some_inj.mp hx).symm
    have hx2 : x ≠ ej := by
      intro hx2
      rw [hx2, hmej] at hx
      exact hmj (Option.some_inj.mp hx).symm
    rw [if_neg hx1, if_neg hx2]
    exact hx

theorem Pool.remove_length {V : Type} {p : Pool V} (hw : p.WF) {e i : Nat}
    (hme : p.map e = some i) :
    (p.remove e).entities.length = p.entities.length - 1 := by
  have hilt := Pool.WF.map_lt hw hme
  obtain ⟨lastE, hle⟩ : ∃ a, p.entities[p.entities.length - 1]? = some a := by
    rw [List.getElem?_eq_getElem (by omega)]
    exact ⟨_, rfl⟩
  obtain ⟨lastV, hlv⟩ : ∃ a, p.values[p.entities.length - 1]? = some a := by
    rw [List.getElem?_eq_getElem (by rw [hw.2.1]; omega)]
    exact ⟨_, rfl⟩
  rw [Pool.remove_of_mem hme hle hlv]
  simp

theorem Pool.remove_entities_at {V : Type} {p : Pool V} (hw : p.WF) {e i : Nat}
    (hme : p.map e = some i) (k : Nat) (hki : k ≠ i)
    (hk : k < p.entities.length - 1) :
    (p.remove e).entities[k]? = p.entities[k]? := by
  have hilt := Pool.WF.map_lt hw hme
  obtain ⟨lastE, hle⟩ : ∃ a, p.entities[p.entities.length - 1]? = some a := by
    rw [List.getElem?_eq_getElem (by omega)]
    exact ⟨_, rfl⟩
  obtain ⟨lastV, hlv⟩ : ∃ a, p.values[p.entities.length - 1]? = some a := by
    rw [List.getElem?_eq_getElem (by rw [hw.2.1]; omega)]
    exact ⟨_, rfl⟩
  rw [Pool.remove_of_mem hme hle hlv]
  dsimp only
  rw [List.getElem?_take, if_pos hk, List.getElem?_set_ne (Ne.symm hki)]

theorem Pool.set_has {V : Type} {p : Pool V} (e x : Nat) (v : V) :
    ((p.set e v).has x = true) ↔ (x = e ∨ p.has x = true) := by
  cases hme : p.map e with
  | some i =>
      rw [Pool.set_of_mem hme]
      unfold Pool.has
      dsimp only
      constructor
      · intro hh
        exact Or.inr hh
      · rintro (rfl | hh)
        · rw [hme]
          rfl
        · exact hh
  | none =>
      rw [Pool.set_of_not_mem hme]
      unfold Pool.has
      dsimp only
      by_cases hx : x = e
      · rw [if_pos hx]
        simp [hx]
      · rw [if_neg hx]
        simp [hx]

theorem Pool.remove_has {V : Type} {p : Pool V} (hw : p.WF) (e x : Nat) :
    ((p.remove e).has x = true) ↔ (x ≠ e ∧ p.has x = true) := by
  cases hme : p.map e with
  | none =>
      rw [Pool.remove_of_not_mem hme]
      constructor
      · intro hh
        refine ⟨fun hxe => ?_, hh⟩
        rw [hxe] at hh
        unfold Pool.has at hh
        rw [hme] at hh
        exact Bool.noConfusion hh
      · exact And.right
  | some i =>
      have hilt := Pool.WF.map_lt hw hme
      obtain ⟨lastE, hle⟩ : ∃ a, p.entities[p.entities.length - 1]? = some a := by
        rw [List.getElem?_eq_getElem (by omega)]
        exact ⟨_, rfl⟩
      obtain ⟨lastV, hlv⟩ : ∃ a, p.values[p.entities.length - 1]? = some a := by
        rw [List.getElem?_eq_getElem (by rw [hw.2.1]; omega)]
        exact ⟨_, rfl⟩
      have hml : p.map lastE = some (p.entities.length - 1) := hw.2.2.2 _ lastE hle
      rw [Pool.remove_of_mem hme hle hlv]
      unfold Pool.has
      dsimp only
      by_cases hx : x = e
      · rw [if_pos hx]
        simp [hx]
      · rw [if_neg hx]
        by_cases hxl : x = lastE
        · rw [if_pos hxl]
          constructor
          · intro _
            exact ⟨hx, by rw [hxl, hml]; rfl⟩
          · intro _
            rfl
        · rw [if_neg hxl]
          constructor
          · intro hh
            exact ⟨hx, hh⟩
          · exact And.right

/-- Modelled from the spec: a group over two components — the two grouped
pools and the boundary `size` marking the contiguous in-group prefix
shared by both pools (the repository declares `GroupData` with `size`,
the invalidation flag and its pools, but not the repartitioning code). -/
structure GroupReg (V W : Type) where
  A : Pool V
  B : Pool W
  gsize : Nat

/-- Modelled from the spec: `set` of grouped component A with incremental
repartition.  If the entity already had A the value changes in place; if
it newly gains A and now holds both grouped components, its slot is
swapped with the boundary occupant in both pools and the boundary
advances. -/
def GroupReg.setA {V W : Type} (g : GroupReg V W) (e : Nat) (v : V) : GroupReg V W :=
  match g.A.map e with
  | some _ => { g with A := g.A.set e v }
  | none =>
      match g.B.map e with
      | some ib =>
          { A := (g.A.set e v).swap g.A.entities.length g.gsize
            B := g.B.swap ib g.gsize
            gsize := g.gsize + 1 }
      | none => { g with A := g.A.set e v }

/-- Modelled from the spec: `remove` of grouped component A with
incremental repartition.  An entity holding both grouped components is
first swapped to just behind the boundary in both pools and the boundary
retreats; then its slot is swap-removed from pool A. -/
def GroupReg.removeA {V W : Type} (g : GroupReg V W) (e : Nat) : GroupReg V W :=
  match g.A.map e, g.B.map e with
  | some ia, some ib =>
      { A := (g.A.swap ia (g.gsize - 1)).remove e
        B := g.B.swap ib (g.gsize - 1)
        gsize := g.gsize - 1 }
  | some _, none => { g with A := g.A.remove e }
  | none, _ => g

/-- The same group seen with its pools exchanged. -/
def GroupReg.flip {V W : Type} (g : GroupReg V W) : GroupReg W V :=
  ⟨g.B, g.A, g.gsize⟩

/-- Modelled from the spec: `set` of grouped component B (symmetric to
component A). -/
def GroupReg.setB {V W : Type} (g : GroupReg V W) (e : Nat) (w : W) : GroupReg V W :=
  (g.flip.setA e w).flip

/-- Modelled from the spec: `remove` of grouped component B (symmetric to
component A). -/
def GroupReg.removeB {V W : Type} (g : GroupReg V W) (e : Nat) : GroupReg V W :=
  (g.flip.removeA e).flip

/-- One registry mutation touching the grouped components. -/
inductive GroupOp (V W : Type) where
  | setA (e : Nat) (v : V)
  | setB (e : Nat) (w : W)
  | removeA (e : Nat)
  | removeB (e : Nat)

/-- Apply one mutation. -/
def groupStep {V W : Type} (g : GroupReg V W) : GroupOp V W → GroupReg V W
  | .setA e v => g.setA e v
  | .setB e w => g.setB e w
  | .removeA e => g.removeA e
  | .removeB e => g.removeB e

/-- The group created over the two components before any entity exists. -/
def emptyGroup (V W : Type) : GroupReg V W :=
  ⟨Pool.empty V, Pool.empty W, 0⟩

/-- Run a sequence of mutations from the freshly created group. -/
def runGroup {V W : Type} (ops : List (GroupOp V W)) : GroupReg V W :=
  ops.foldl groupStep (emptyGroup V W)

/-- The group partition invariant: both pools well-formed, the boundary
within both packed ranges, the two prefixes identical in order, and the
prefix containing exactly the entities holding both components. -/
def GroupReg.GInv {V W : Type} (g : GroupReg V W) : Prop :=
  g.A.WF ∧ g.B.WF ∧
  g.gsize ≤ g.A.entities.length ∧ g.gsize ≤ g.B.entities.length ∧
  (∀ i, i < g.gsize → g.A.entities[i]? = g.B.entities[i]?) ∧
  (∀ e, (g.A.has e = true ∧ g.B.has e = true) ↔
    ∃ i, i < g.gsize ∧ g.A.entities[i]? = some e)

theorem GroupReg.GInv_flip {V W : Type} {g : GroupReg V W} (h : g.GInv) :
    g.flip.GInv := by
  obtain ⟨hwA, hwB, hsA, hsB, hord, hpart⟩ := h
  refine ⟨hwB, hwA, hsB, hsA, ?_, ?_⟩
  · intro i hi
    exact (hord i hi).symm
  · intro e
    unfold GroupReg.flip
    dsimp only
    rw [and_comm]
    constructor
    · intro hc
      obtain ⟨i, hi, hAi⟩ := (hpart e).mp hc
      exact ⟨i, hi, (hord i hi) ▸ hAi⟩
    · rintro ⟨i, hi, hBi⟩
      exact (hpart e).mpr ⟨i, hi, (hord i hi).trans hBi⟩

theorem GroupReg.flip_flip {V W : Type} (g : GroupReg V W) : g.flip.flip = g := rfl

theorem emptyGroup_GInv (V W : Type) : (emptyGroup V W).GInv := by
  refine ⟨Pool.empty_WF V, Pool.empty_WF W, Nat.le_refl _, Nat.le_refl _, ?_, ?_⟩
  · intro i hi
    exact absurd hi (by unfold emptyGroup; dsimp only; omega)
  · intro e
    constructor
    · rintro ⟨h1, _⟩
      exact absurd h1 (by unfold emptyGroup Pool.empty Pool.has; dsimp only; simp)
    · rintro ⟨i, hi, _⟩
      exact absurd hi (by unfold emptyGroup; dsimp only; omega)

theorem GroupReg.setA_GInv {V W : Type} {g : GroupReg V W} (h : g.GInv)
    (e : Nat) (v : V) : (g.setA e v).GInv := by
  obtain ⟨hwA, hwB, hsA, hsB, hord, hpart⟩ := h
  unfold GroupReg.setA
  cases hae : g.A.map e with
  | some ia =>
      dsimp only
      have hent : (g.A.set e v).entities = g.A.entities := by
        rw [Pool.set_of_mem hae]
      have hmap : (g.A.set e v).map = g.A.map := by
        rw [Pool.set_of_mem hae]
      have hhas : ∀ x, (g.A.set e v).has x = g.A.has x := by
        intro x
        unfold Pool.has
        rw [hmap]
      unfold GroupReg.GInv
      dsimp only
      refine ⟨Pool.set_WF hwA e v, hwB, ?_, hsB, ?_, ?_⟩
      · rw [hent]
        exact hsA
      · intro i hi
        rw [hent]
        exact hord i hi
      · intro x
        rw [hhas x, hent]
        exact hpart x
  | none =>
      cases hbe : g.B.map e with
      | none =>
          dsimp only
          have hent : (g.A.set e v).entities = g.A.entities ++ [e] := by
            rw [Pool.set_of_not_mem hae]
          unfold GroupReg.GInv
          dsimp only
          refine ⟨Pool.set_WF hwA e v, hwB, ?_, hsB, ?_, ?_⟩
          · rw [hent, List.length_append]
            simp only [List.length_cons, List.length_nil]
            omega
          · intro i hi
            rw [hent, List.getElem?_append_left (by omega)]
            exact hord i hi
          · intro x
            constructor
            · rintro ⟨hx1, hx2⟩
              rcases (Pool.set_has e x v).mp hx1 with rfl | hAx
              · unfold Pool.has at hx2
                rw [hbe] at hx2
                exact absurd hx2 (by simp)
              · obtain ⟨i, hi, hAi⟩ := (hpart x).mp ⟨hAx, hx2⟩
                refine ⟨i, hi, ?_⟩
                rw [hent, List.getElem?_append_left (by omega)]
                exact hAi
            · rintro ⟨i, hi, hAi⟩
              rw [hent, List.getElem?_append_left (by omega)] at hAi
              have hx := (hpart x).mpr ⟨i, hi, hAi⟩
              exact ⟨(Pool.set_has e x v).mpr (Or.inr hx.1), hx.2⟩
      | some ib =>
          dsimp only
          have hA'ent : (g.A.set e v).entities = g.A.entities ++ [e] := by
            rw [Pool.set_of_not_mem hae]
          have hwA' : (g.A.set e v).WF := Pool.set_WF hwA e v
          have hA'len : (g.A.set e v).entities.length = g.A.entities.length + 1 := by
            rw [hA'ent, List.length_append]
            simp
          have hiblt : ib < g.B.entities.length := Pool.WF.map_lt hwB hbe
          have hBe : g.B.entities[ib]? = some e := Pool.WF.map_entity hwB hbe
          have hibge : g.gsize ≤ ib := by
            by_contra hlt
            push_neg at hlt
            have h5 := hord ib hlt
            rw [hBe] at h5
            have h7 := hwA.2.2.2 ib e h5
            rw [hae] at h7
            exact Option.noConfusion h7
          have hgsB : g.gsize < g.B.entities.length := by omega
          have hA'e_at : (g.A.set e v).entities[g.A.entities.length]? = some e := by
            rw [hA'ent]
            exact List.getElem?_concat_length _ _
          obtain ⟨hwA2, hlen2, hpt2, hhas2, _, _, _⟩ :=
            Pool.swap_spec hwA' (i := g.A.entities.length) (j := g.gsize)
              (by omega) (by omega)
          obtain ⟨hwB2, hlenB2, hptB2, hhasB2, _, _, _⟩ :=
            Pool.swap_spec hwB hiblt hgsB
          have hA2top :
              ((g.A.set e v).swap g.A.entities.length g.gsize).entities[g.gsize]? =
                some e := by
            rw [hpt2 g.gsize]
            by_cases hgl : g.gsize = g.A.entities.length
            · rw [if_pos hgl, hgl]
              exact hA'e_at
            · rw [if_neg hgl, if_pos rfl]
              exact hA'e_at
          have hB2top : (g.B.swap ib g.gsize).entities[g.gsize]? = some e := by
            rw [hptB2 g.gsize]
            by_cases hgib : g.gsize = ib
            · rw [if_pos hgib, hgib]
              exact hBe
            · rw [if_neg hgib, if_pos rfl]
              exact hBe
          have hA2pre : ∀ i, i < g.gsize →
              ((g.A.set e v).swap g.A.entities.length g.gsize).entities[i]? =
                g.A.entities[i]? := by
            intro i hi
            rw [hpt2 i, if_neg (show i ≠ g.A.entities.length by omega),
              if_neg (show i ≠ g.gsize by omega)]
            rw [hA'ent, List.getElem?_append_left (by omega)]
          unfold GroupReg.GInv
          dsimp only
          refine ⟨hwA2, hwB2, ?_, ?_, ?_, ?_⟩
          · rw [hlen2, hA'len]
            omega
          · rw [hlenB2]
            omega
          · intro i hi
            by_cases hig : i = g.gsize
            · subst hig
              rw [hA2top, hB2top]
            · have hilt : i < g.gsize := by omega
              rw [hA2pre i hilt, hptB2 i, if_neg (show i ≠ ib by omega),
                if_neg hig]
              exact hord i hilt
          · intro x
            rw [hhas2 x, hhasB2 x]
            constructor
            · rintro ⟨hx1, hx2⟩
              rcases (Pool.set_has e x v).mp hx1 with rfl | hAx
              · exact ⟨g.gsize, by omega, hA2top⟩
              · obtain ⟨i, hi, hAi⟩ := (hpart x).mp ⟨hAx, hx2⟩
                refine ⟨i, by omega, ?_⟩
                rw [hA2pre i hi]
                exact hAi
            · rintro ⟨i, hi, hAi⟩
              by_cases hig : i = g.gsize
              · subst hig
                rw [hA2top] at hAi
                have hxe : x = e := (Option.some_inj.mp hAi).symm
                refine ⟨(Pool.set_has e x v).mpr (Or.inl hxe), ?_⟩
                unfold Pool.has
                rw [hxe, hbe]
                rfl
              · have hilt : i < g.gsize := by omega
                rw [hA2pre i hilt] at hAi
                have hx := (hpart x).mpr ⟨i, hilt, hAi⟩
                exact ⟨(Pool.set_has e x v).mpr (Or.inr hx.1), hx.2⟩

theorem GroupReg.removeA_GInv {V W : Type} {g : GroupReg V W} (h : g.GInv)
    (e : Nat) : (g.removeA e).GInv := by
  obtain ⟨hwA, hwB, hsA, hsB, hord, hpart⟩ := h
  unfold GroupReg.removeA
  cases hae : g.A.map e with
  | none =>
      dsimp only
      exact ⟨hwA, hwB, hsA, hsB, hord, hpart⟩
  | some ia =>
      cases hbe : g.B.map e with
      | none =>
          dsimp only
          have hialt : ia < g.A.entities.length := Pool.WF.map_lt hwA hae
          have hiage : g.gsize ≤ ia := by
            by_contra hlt
            push_neg at hlt
            have h5 := hord ia hlt
            rw [Pool.WF.map_entity hwA hae] at h5
            have h7 := hwB.2.2.2 ia e h5.symm
            rw [hbe] at h7
            exact Option.noConfusion h7
          unfold GroupReg.GInv
          dsimp only
          refine ⟨Pool.remove_WF hwA e, hwB, ?_, hsB, ?_, ?_⟩
          · rw [Pool.remove_length hwA hae]
            omega
          · intro i hi
            rw [Pool.remove_entities_at hwA hae i (by omega) (by omega)]
            exact hord i hi
          · intro x
            constructor
            · rintro ⟨hx1, hx2⟩
              obtain ⟨hxe, hAx⟩ := (Pool.remove_has hwA e x).mp hx1
              obtain ⟨i, hi, hAi⟩ := (hpart x).mp ⟨hAx, hx2⟩
              refine ⟨i, hi, ?_⟩
              rw [Pool.remove_entities_at hwA hae i (by omega) (by omega)]
              exact hAi
            · rintro ⟨i, hi, hAi⟩
              rw [Pool.remove_entities_at hwA hae i (by omega) (by omega)] at hAi
              have hx := (hpart x).mpr ⟨i, hi, hAi⟩
              have hxe : x ≠ e := by
                intro hxe
                have hb := hx.2
                rw [hxe] at hb
                unfold Pool.has at hb
                rw [hbe] at hb
                exact Bool.noConfusion hb
              exact ⟨(Pool.remove_has hwA e x).mpr ⟨hxe, hx.1⟩, hx.2⟩
      | some ib =>
          dsimp only
          have hAhase : g.A.has e = true := by
            unfold Pool.has
            rw [hae]
            rfl
          have hBhase : g.B.has e = true := by
            unfold Pool.has
            rw [hbe]
            rfl
          obtain ⟨j, hj, hAj⟩ := (hpart e).mp ⟨hAhase, hBhase⟩
          have hja : ia = j := by
            have h5 := hwA.2.2.2 j e hAj
            rw [hae] at h5
            exact Option.some_inj.mp h5
          have hialt2 : ia < g.gsize := by omega
          have hgs1 : 1 ≤ g.gsize := by omega
          have hialt : ia < g.A.entities.length := Pool.WF.map_lt hwA hae
          have hn : g.gsize - 1 < g.A.entities.length := by omega
          have hBia : g.B.entities[ia]? = some e := by
            have h5 := hord ia (by omega)
            rw [Pool.WF.map_entity hwA hae] at h5
            exact h5.symm
          have hibia : ib = ia := by
            have h5 := hwB.2.2.2 ia e hBia
            rw [hbe] at h5
            exact Option.some_inj.mp h5
          have hiaB : ia < g.B.entities.length := by omega
          have hnB : g.gsize - 1 < g.B.entities.length := by omega
          obtain ⟨hwA1, hlenA1, hptA1, hhasA1, hmA1a, _, _⟩ :=
            Pool.swap_spec hwA hialt hn
          obtain ⟨hwB1, hlenB1, hptB1, hhasB1, _, _, _⟩ :=
            Pool.swap_spec hwB (show ib < g.B.entities.length by omega)
              (show g.gsize - 1 < g.B.entities.length by omega)
          have hA1me : (g.A.swap ia (g.gsize - 1)).map e = some (g.gsize - 1) :=
            hmA1a e hae
          have hremlen :
              ((g.A.swap ia (g.gsize - 1)).remove e).entities.length =
                g.A.entities.length - 1 := by
            rw [Pool.remove_length hwA1 hA1me, hlenA1]
          have hA2at : ∀ i, i < g.gsize - 1 →
              ((g.A.swap ia (g.gsize - 1)).remove e).entities[i]? =
                (if i = ia then g.A.entities[g.gsize - 1]? else g.A.entities[i]?) := by
            intro i hi
            rw [Pool.remove_entities_at hwA1 hA1me i (by omega) (by rw [hlenA1]; omega)]
            rw [hptA1 i]
            by_cases hia2 : i = ia
            · rw [if_pos hia2, if_pos hia2]
            · rw [if_neg hia2, if_neg (show i ≠ g.gsize - 1 by omega), if_neg hia2]
          unfold GroupReg.GInv
          dsimp only
          refine ⟨Pool.remove_WF hwA1 e, hwB1, ?_, ?_, ?_, ?_⟩
          · rw [hremlen]
            omega
          · rw [hlenB1]
            omega
          · intro i hi
            rw [hA2at i hi, hptB1 i]
            by_cases hia2 : i = ia
            · rw [if_pos hia2, if_pos (by rw [hia2, hibia])]
              exact hord (g.gsize - 1) (by omega)
            · rw [if_neg hia2, if_neg (by rw [hibia]; exact hia2),
                if_neg (show i ≠ g.gsize - 1 by omega)]
              exact hord i (by omega)
          · intro x
            rw [hhasB1 x]
            constructor
            · rintro ⟨hx1, hx2⟩
              obtain ⟨hxe, hA1x⟩ := (Pool.remove_has hwA1 e x).mp hx1
              rw [hhasA1 x] at hA1x
              obtain ⟨j2, hj2, hAj2⟩ := (hpart x).mp ⟨hA1x, hx2⟩
              have hj2ia : j2 ≠ ia := by
                intro hh
                rw [hh, Pool.WF.map_entity hwA hae] at hAj2
                exact hxe (Option.some_inj.mp hAj2).symm
              by_cases hj2n : j2 = g.gsize - 1
              · have hiane : ia ≠ g.gsize - 1 := by
                  rw [← hj2n]
                  exact fun hh => hj2ia hh.symm
                refine ⟨ia, by omega, ?_⟩
                rw [hA2at ia (by omega), if_pos rfl, ← hj2n]
                exact hAj2
              · refine ⟨j2, by omega, ?_⟩
                rw [hA2at j2 (by omega), if_neg hj2ia]
                exact hAj2
            · rintro ⟨i, hi, hAi⟩
              rw [hA2at i hi] at hAi
              by_cases hia2 : i = ia
              · rw [if_pos hia2] at hAi
                have hx := (hpart x).mpr ⟨g.gsize - 1, by omega, hAi⟩
                have hxe : x ≠ e := by
                  intro hxe
                  rw [hxe] at hAi
                  have h5 := hwA.2.2.2 _ e hAi
                  rw [hae] at h5
                  have h6 := Option.some_inj.mp h5
                  omega
                refine ⟨(Pool.remove_has hwA1 e x).mpr ⟨hxe, ?_⟩, hx.2⟩
                rw [hhasA1 x]
                exact hx.1
              · rw [if_neg hia2] at hAi
                have hx := (hpart x).mpr ⟨i, by omega, hAi⟩
                have hxe : x ≠ e := by
                  intro hxe
                  rw [hxe] at hAi
                  have h5 := hwA.2.2.2 i e hAi
                  rw [hae] at h5
                  exact hia2 (Option.some_inj.mp h5).symm
                refine ⟨(Pool.remove_has hwA1 e x).mpr ⟨hxe, ?_⟩, hx.2⟩
                rw [hhasA1 x]
                exact hx.1

theorem GroupReg.setB_GInv {V W : Type} {g : GroupReg V W} (h : g.GInv)
    (e : Nat) (w : W) : (g.setB e w).GInv :=
  GroupReg.GInv_flip (GroupReg.setA_GInv (GroupReg.GInv_flip h) e w)

theorem GroupReg.removeB_GInv {V W : Type} {g : GroupReg V W} (h : g.GInv)
    (e : Nat) : (g.removeB e).GInv :=
  GroupReg.GInv_flip (GroupReg.removeA_GInv (GroupReg.GInv_flip h) e)

theorem runGroup_GInv {V W : Type} (ops : List (GroupOp V W)) :
    (runGroup ops).GInv := by
  suffices hsuf : ∀ (g : GroupReg V W), g.GInv → (ops.foldl groupStep g).GInv from
    hsuf (emptyGroup V W) (emptyGroup_GInv V W)
  induction ops with
  | nil =>
      intro g hg
      exact hg
  | cons op rest ih =>
      intro g hg
      simp only [List.foldl_cons]
      refine ih (groupStep g op) ?_
      cases op with
      | setA e v => exact GroupReg.setA_GInv hg e v
      | setB e w => exact GroupReg.setB_GInv hg e w
      | removeA e => exact GroupReg.removeA_GInv hg e
      | removeB e => exact GroupReg.removeB_GInv hg e

/-- C2: group partition invariant.  For the group created over two
components before any entities exist, after any interleaving of set/remove
mutations on either component the packed range `[0, size)` of each
grouped pool contains exactly the entities holding both components, in
identical relative order across the two pools. -/
theorem C2_group_partition {V W : Type} (ops : List (GroupOp V W)) (e i : Nat) :
    (i < (runGroup ops).gsize →
      (runGroup ops).A.entities[i]? = (runGroup ops).B.entities[i]?) ∧
    (((runGroup ops).A.has e = true ∧ (runGroup ops).B.has e = true) ↔
      ∃ j, j < (runGroup ops).gsize ∧ (runGroup ops).A.entities[j]? = some e) ∧
    (((runGroup ops).A.has e = true ∧ (runGroup ops).B.has e = true) ↔
      ∃ j, j < (runGroup ops).gsize ∧ (runGroup ops).B.entities[j]? = some e) ∧
    (runGroup ops).gsize ≤ (runGroup ops).A.entities.length ∧
    (runGroup ops).gsize ≤ (runGroup ops).B.entities.length := by
  obtain ⟨hwA, hwB, hsA, hsB, hord, hpart⟩ := runGroup_GInv ops
  refine ⟨fun hi => hord i hi, hpart e, ?_, hsA, hsB⟩
  rw [hpart e]
  constructor
  · rintro ⟨j, hj, hAj⟩
    exact ⟨j, hj, (hord j hj) ▸ hAj⟩
  · rintro ⟨j, hj, hBj⟩
    exact ⟨j, hj, (hord j hj).trans hBj⟩

end ECR
